import Mathlib

/-!
Verification of the multi-agent orchestration layer (google-adk-agents).

The development embeds, as executable Lean definitions:
  * the Event data model (spec section 3);
  * the Loop composite state machine (spec section 4.5; the LoopAgent
    implementation lives in the external `google.adk` package, so the
    executor is modelled from the spec);
  * the Sequential composite with session-state threading (spec section
    4.4 / 4.2, same external-package caveat);
  * the `wrap_agent` labelling decorator from `src/root_agent.py`;
  * the `StopWhenDone` gate from `src/test.py`;
  * the error-handling interactive runner from `src/main.py`;
  * the per-turn final-response collection from
    `src/agents/EdgeCaseAgent/agent.py`;
  * `normalize_value` from `src/agent_tools/bigquery_tool.py`.
-/

namespace Adk

/-- A content part of an Event: either text or an opaque non-text payload
(tool invocation, tool result), mirroring `google.genai.types.Part` as the
repository uses it: reading `p.text` gives the text for a text part and
`None` for a non-text part. -/
inductive Part where
  | text (s : String)
  | payload (data : String)
  deriving DecidableEq, Repr

/-- Mirrors `types.Content`: an ordered list of parts. -/
structure Content where
  parts : List Part
  deriving DecidableEq, Repr

/-- The Event record of spec section 3: author, optional content,
turn-finality flag, and the escalate action bit (the only action the
core consults). -/
structure Event where
  author : String
  content : Option Content
  isFinal : Bool
  escalate : Bool
  deriving DecidableEq, Repr

/-- Python truthiness of `getattr(p, "text", None)`: the text of a text
part when it is non-empty, `none` for non-text parts and empty text. -/
def truthyText : Part → Option String
  | Part.text s => if s = "" then none else some s
  | Part.payload _ => none

/-- The non-empty texts of an event's parts, guarded exactly like the
source's `if ev.content and ev.content.parts:` check (missing content and
an empty part list both contribute nothing). -/
def eventTexts (ev : Event) : List String :=
  match ev.content with
  | none => []
  | some c => if c.parts = [] then [] else c.parts.filterMap truthyText

/-- True when some event of the list carries `actions.escalate = true`. -/
def escalated (evs : List Event) : Bool :=
  evs.any (fun ev => ev.escalate)

/-! ## Loop composite (spec section 4.5)

Modelled from the spec: the `LoopAgent` state machine is implemented by
the external `google.adk` package and is not part of `src/`; the
executor below follows the transition rules of spec section 4.5
verbatim.  A child is embedded as a function from the (1-based)
iteration number to the event stream it yields in that iteration; the
trace records, per child execution, the iteration, the child index and
the events produced. -/

/-- One child execution in a Loop trace. -/
structure TraceEntry where
  iter : Nat
  childIdx : Nat
  events : List Event
  deriving DecidableEq, Repr

/-- A loop child: given the iteration number, the events it yields. -/
def LoopChild : Type := Nat → List Event

/-- Modelled from the spec: run the children of one iteration in order,
starting at child index `j`; after each child's stream is fully
consumed, if some yielded event escalated, stop (remaining children of
the iteration are skipped) and report `true`. -/
def runIterFrom (k : Nat) : List LoopChild → Nat → List TraceEntry × Bool
  | [], _ => ([], false)
  | c :: cs, j =>
    if escalated (c k) then ([⟨k, j, c k⟩], true)
    else (⟨k, j, c k⟩ :: (runIterFrom k cs (j + 1)).1, (runIterFrom k cs (j + 1)).2)

/-- Modelled from the spec: run the loop from iteration `k` with
`rem` iterations of budget left.  Returns the trace and the number of
iterations completed (children exhausted without escalation); on
escalation the loop transitions to Terminated and no further iteration
starts. -/
def loopRunFrom (children : List LoopChild) (k : Nat) : Nat → List TraceEntry × Nat
  | 0 => ([], 0)
  | rem + 1 =>
    if (runIterFrom k children 0).2 then ((runIterFrom k children 0).1, 0)
    else ((runIterFrom k children 0).1 ++ (loopRunFrom children (k + 1) rem).1,
          (loopRunFrom children (k + 1) rem).2 + 1)

/-- Modelled from the spec: the full Loop invocation with cap
`maxIterations`, starting at iteration 1. -/
def loopRun (children : List LoopChild) (maxIterations : Nat) : List TraceEntry × Nat :=
  loopRunFrom children 1 maxIterations

/-- Iterations run to completion by a Loop invocation. -/
def loopCompleted (children : List LoopChild) (maxIterations : Nat) : Nat :=
  (loopRun children maxIterations).2

/-- The trace of a Loop invocation. -/
def loopTrace (children : List LoopChild) (maxIterations : Nat) : List TraceEntry :=
  (loopRun children maxIterations).1

theorem runIterFrom_iter (k : Nat) (cs : List LoopChild) (j : Nat) :
    ∀ e ∈ (runIterFrom k cs j).1, e.iter = k := by
  induction cs generalizing j with
  | nil => intro e he; simp [runIterFrom] at he
  | cons c cs ih =>
    intro e he
    by_cases h : escalated (c k) = true
    · simp [runIterFrom, h] at he
      subst he; rfl
    · simp only [runIterFrom, h, if_neg, Bool.not_eq_true, if_false, List.mem_cons] at he
      rcases he with he | he
      · subst he; rfl
      · exact ih (j + 1) e he

theorem runIterFrom_childIdx (k : Nat) (cs : List LoopChild) (j : Nat) :
    ∀ e ∈ (runIterFrom k cs j).1, j ≤ e.childIdx := by
  induction cs generalizing j with
  | nil => intro e he; simp [runIterFrom] at he
  | cons c cs ih =>
    intro e he
    by_cases h : escalated (c k) = true
    · simp [runIterFrom, h] at he
      subst he; exact Nat.le_refl j
    · simp only [runIterFrom, h, if_neg, Bool.not_eq_true, if_false, List.mem_cons] at he
      rcases he with he | he
      · subst he; exact Nat.le_refl j
      · exact Nat.le_of_succ_le (ih (j + 1) e he)

theorem runIterFrom_flag_false (k : Nat) (cs : List LoopChild) (j : Nat)
    (hf : (runIterFrom k cs j).2 = false) :
    ∀ e ∈ (runIterFrom k cs j).1, escalated e.events = false := by
  induction cs generalizing j with
  | nil => intro e he; simp [runIterFrom] at he
  | cons c cs ih =>
    intro e he
    by_cases h : escalated (c k) = true
    · simp [runIterFrom, h] at hf
    · simp only [runIterFrom, h, if_neg, Bool.not_eq_true, if_false, List.mem_cons] at he hf
      rcases he with he | he
      · subst he; simpa using h
      · exact ih (j + 1) hf e he

theorem runIterFrom_flag_true (k : Nat) (cs : List LoopChild) (j : Nat)
    (hf : (runIterFrom k cs j).2 = true) :
    ∃ e ∈ (runIterFrom k cs j).1, escalated e.events = true := by
  induction cs generalizing j with
  | nil => simp [runIterFrom] at hf
  | cons c cs ih =>
    by_cases h : escalated (c k) = true
    · exact ⟨⟨k, j, c k⟩, by simp [runIterFrom, h], h⟩
    · simp only [runIterFrom, h, if_neg, Bool.not_eq_true, if_false] at hf ⊢
      obtain ⟨e, he, hesc⟩ := ih (j + 1) hf
      exact ⟨e, List.mem_cons_of_mem _ he, hesc⟩

theorem runIterFrom_esc_max (k : Nat) (cs : List LoopChild) (j : Nat) (e : TraceEntry)
    (he : e ∈ (runIterFrom k cs j).1) (hesc : escalated e.events = true) :
    ∀ e' ∈ (runIterFrom k cs j).1, e'.childIdx ≤ e.childIdx := by
  induction cs generalizing j with
  | nil => simp [runIterFrom] at he
  | cons c cs ih =>
    by_cases h : escalated (c k) = true
    · simp only [runIterFrom, h, if_true, List.mem_singleton] at he ⊢
      intro e' he'
      rw [he, he']
    · simp only [runIterFrom, h, if_neg, Bool.not_eq_true, if_false, List.mem_cons] at he ⊢
      rcases he with he | he
      · rw [he] at hesc
        simp at hesc
        exact absurd hesc h
      · intro e' he'
        rcases he' with he' | he'
        · rw [he']
          exact Nat.le_of_succ_le (runIterFrom_childIdx k cs (j + 1) e he)
        · exact ih (j + 1) he e' he'

theorem loopRunFrom_le (children : List LoopChild) (k : Nat) :
    ∀ rem, (loopRunFrom children k rem).2 ≤ rem := by
  intro rem
  induction rem generalizing k with
  | zero => simp [loopRunFrom]
  | succ rem ih =>
    by_cases h : (runIterFrom k children 0).2 = true
    · simp [loopRunFrom, h]
    · simp only [loopRunFrom, h, if_neg, Bool.not_eq_true, if_false]
      exact Nat.succ_le_succ (ih (k + 1))

theorem loopRunFrom_iter_bounds (children : List LoopChild) (k rem : Nat) :
    ∀ e ∈ (loopRunFrom children k rem).1, k ≤ e.iter ∧ e.iter < k + rem := by
  induction rem generalizing k with
  | zero => intro e he; simp [loopRunFrom] at he
  | succ rem ih =>
    intro e he
    by_cases h : (runIterFrom k children 0).2 = true
    · simp only [loopRunFrom, h, if_true] at he
      have := runIterFrom_iter k children 0 e he
      omega
    · simp only [loopRunFrom, h, if_neg, Bool.not_eq_true, if_false, List.mem_append] at he
      rcases he with he | he
      · have := runIterFrom_iter k children 0 e he
        omega
      · have := ih (k + 1) e he
        omega

theorem loopRunFrom_esc_iff (children : List LoopChild) (k rem : Nat) :
    (∀ e ∈ (loopRunFrom children k rem).1, escalated e.events = false) ↔
      (loopRunFrom children k rem).2 = rem := by
  induction rem generalizing k with
  | zero => simp [loopRunFrom]
  | succ rem ih =>
    by_cases h : (runIterFrom k children 0).2 = true
    · simp only [loopRunFrom, h, if_true]
      constructor
      · intro hall
        obtain ⟨e, he, hesc⟩ := runIterFrom_flag_true k children 0 h
        rw [hall e he] at hesc
        cases hesc
      · intro h0
        cases h0
    · simp only [loopRunFrom, h, if_neg, Bool.not_eq_true, if_false, List.mem_append]
      constructor
      · intro hall
        have : (loopRunFrom children (k + 1) rem).2 = rem :=
          (ih (k + 1)).mp (fun e he => hall e (Or.inr he))
        omega
      · intro hsum e he
        have hrem : (loopRunFrom children (k + 1) rem).2 = rem := by omega
        rcases he with he | he
        · exact runIterFrom_flag_false k children 0 (Bool.not_eq_true _ ▸ h) e he
        · exact (ih (k + 1)).mpr hrem e he

theorem loopRunFrom_esc_stops (children : List LoopChild) (k rem : Nat) (e : TraceEntry)
    (he : e ∈ (loopRunFrom children k rem).1) (hesc : escalated e.events = true) :
    ∀ e' ∈ (loopRunFrom children k rem).1,
      e'.iter < e.iter ∨ (e'.iter = e.iter ∧ e'.childIdx ≤ e.childIdx) := by
  induction rem generalizing k with
  | zero => simp [loopRunFrom] at he
  | succ rem ih =>
    by_cases h : (runIterFrom k children 0).2 = true
    · simp only [loopRunFrom, h, if_true] at he ⊢
      intro e' he'
      right
      refine ⟨?_, runIterFrom_esc_max k children 0 e he hesc e' he'⟩
      rw [runIterFrom_iter k children 0 e' he', runIterFrom_iter k children 0 e he]
    · simp only [loopRunFrom, h, if_neg, Bool.not_eq_true, if_false, List.mem_append] at he ⊢
      have hstep := runIterFrom_flag_false k children 0 (by simpa using h)
      rcases he with he | he
      · rw [hstep e he] at hesc
        cases hesc
      · intro e' he'
        rcases he' with he' | he'
        · left
          have h1 := runIterFrom_iter k children 0 e' he'
          have h2 := loopRunFrom_iter_bounds children (k + 1) rem e he
          omega
        · exact ih (k + 1) he e' he'

/-- C1: for every Loop invocation with a positive cap `n`, at most `n`
iterations execute; the count equals `n` exactly when no event yielded
during the invocation escalates; and every trace entry belongs to an
iteration between 1 and `n` (reaching the cap terminates the loop even
when escalation never fires). -/
theorem loop_iteration_cap (children : List LoopChild) (n : Nat) (h : 0 < n) :
    loopCompleted children n ≤ n ∧
    ((∀ e ∈ loopTrace children n, escalated e.events = false) ↔
      loopCompleted children n = n) ∧
    (∀ e ∈ loopTrace children n, 1 ≤ e.iter ∧ e.iter ≤ n) := by
  refine ⟨loopRunFrom_le children 1 n, loopRunFrom_esc_iff children 1 n, ?_⟩
  intro e he
  have := loopRunFrom_iter_bounds children 1 n e he
  omega

theorem loop_iteration_cap_witness :
    loopCompleted [fun _ => []] 2 ≤ 2 ∧
    ((∀ e ∈ loopTrace [fun _ => []] 2, escalated e.events = false) ↔
      loopCompleted [fun _ => []] 2 = 2) ∧
    (∀ e ∈ loopTrace [fun _ => []] 2, 1 ≤ e.iter ∧ e.iter ≤ 2) :=
  loop_iteration_cap [fun _ => []] 2 (by decide)

/-- C2: if a child execution in the Loop trace yielded an escalating
event (iteration `e.iter`, child index `e.childIdx`), then every entry
of the trace is at an earlier iteration or at the same iteration at a
child index no greater than the escalating child: no later child of the
same iteration runs and no later iteration starts. -/
theorem loop_escalation_terminates (children : List LoopChild) (n : Nat) (e : TraceEntry)
    (he : e ∈ loopTrace children n) (hesc : escalated e.events = true) :
    ∀ e' ∈ loopTrace children n,
      e'.iter < e.iter ∨ (e'.iter = e.iter ∧ e'.childIdx ≤ e.childIdx) :=
  loopRunFrom_esc_stops children 1 n e he hesc

theorem loop_escalation_terminates_witness :
    (1 : Nat) < 1 ∨ ((1 : Nat) = 1 ∧ (0 : Nat) ≤ 0) :=
  loop_escalation_terminates [fun _ => [⟨"gate", none, true, true⟩]] 3
    ⟨1, 0, [⟨"gate", none, true, true⟩]⟩ (by decide) (by decide)
    ⟨1, 0, [⟨"gate", none, true, true⟩]⟩ (by decide)

/-! ## Sequential composite (spec sections 4.1, 4.2, 4.4)

Modelled from the spec: the `SequentialAgent` and the session service
are implemented by the external `google.adk` package; `src/main.py` only
composes them.  The Session Store is an association list where `publish`
prepends (the newest binding wins on `readKey`), a child agent is a
function from the observed session state to its event stream and the
successor state, and a Leaf with an `outputKey` publishes the
concatenated text of its final events before completing. -/

def SessionState : Type := List (String × String)

/-- Session Store read: the most recently published value under the key,
or `none` when the key was never published ("absent", not an error). -/
def readKey (st : SessionState) (k : String) : Option String :=
  (st.find? (fun kv => kv.1 == k)).map (fun kv => kv.2)

/-- Session Store publish: bind `k` to `v`, shadowing older bindings. -/
def publish (st : SessionState) (k v : String) : SessionState :=
  (k, v) :: st

/-- A child of a composite: name plus a run function from the observed
session state to the yielded events and the resulting session state. -/
structure AgentC where
  name : String
  run : SessionState → List Event × SessionState

/-- Concatenated text of the final events authored by `name` (what a
Leaf publishes under its `outputKey`, spec section 4.2). -/
def finalText (name : String) (evs : List Event) : String :=
  String.join ((evs.filter (fun ev => ev.isFinal && ev.author == name)).map
    (fun ev => String.join (eventTexts ev)))

/-- Modelled from the spec: a Leaf agent around an opaque backend; when
`key` is set it publishes the concatenation of its final events' text
parts to the Session Store before completing. -/
def mkLeaf (name : String) (backend : SessionState → List Event) (key : Option String) :
    AgentC :=
  ⟨name, fun st =>
    (backend st,
      match key with
      | some k => publish st k (finalText name (backend st))
      | none => st)⟩

/-- Modelled from the spec: the Sequential composite runs its children
strictly in declared order, threading the session state, and yields the
in-order concatenation of the children's event streams. -/
def seqRun : List AgentC → SessionState → List Event × SessionState
  | [], st => ([], st)
  | c :: cs, st =>
    ((c.run st).1 ++ (seqRun cs (c.run st).2).1, (seqRun cs (c.run st).2).2)

/-- The event stream of each child, in declared order, each child run on
the cumulative state left by its predecessors. -/
def seqEventsAt : List AgentC → SessionState → List (List Event)
  | [], _ => []
  | c :: cs, st => (c.run st).1 :: seqEventsAt cs (c.run st).2

/-- The session state observed by the `i`-th child of a Sequential
invocation started in state `st` (the initial state when out of range). -/
def observedState : List AgentC → SessionState → Nat → SessionState
  | _, st, 0 => st
  | [], st, _ + 1 => st
  | c :: cs, st, i + 1 => observedState cs ((c.run st).2) i

theorem seqEventsAt_length (children : List AgentC) (st : SessionState) :
    (seqEventsAt children st).length = children.length := by
  induction children generalizing st with
  | nil => rfl
  | cons c cs ih => simp [seqEventsAt, ih]

theorem seqRun_events (children : List AgentC) (st : SessionState) :
    (seqRun children st).1 = (seqEventsAt children st).flatten := by
  induction children generalizing st with
  | nil => rfl
  | cons c cs ih => simp [seqRun, seqEventsAt, ih]

theorem seqEventsAt_get (children : List AgentC) (st : SessionState) (i : Nat)
    (h : i < children.length) :
    (seqEventsAt children st).get ⟨i, by rw [seqEventsAt_length]; exact h⟩ =
      ((children.get ⟨i, h⟩).run (observedState children st i)).1 := by
  induction children generalizing st i with
  | nil => exact absurd h (Nat.not_lt_zero i)
  | cons c cs ih =>
    cases i with
    | zero => rfl
    | succ i => exact ih ((c.run st).2) i (Nat.lt_of_succ_lt_succ h)

theorem observedState_succ (children : List AgentC) (st : SessionState) (i : Nat)
    (h : i < children.length) :
    observedState children st (i + 1) =
      ((children.get ⟨i, h⟩).run (observedState children st i)).2 := by
  induction children generalizing st i with
  | nil => exact absurd h (Nat.not_lt_zero i)
  | cons c cs ih =>
    cases i with
    | zero => simp [observedState]
    | succ i => exact ih ((c.run st).2) i (Nat.lt_of_succ_lt_succ h)

theorem readKey_publish (st : SessionState) (k v : String) :
    readKey (publish st k v) k = some v := by
  simp [readKey, publish]

/-- C3: in a Sequential invocation the children execute strictly in
declared order (the composite's stream is the in-order concatenation of
the children's streams, each child running on the cumulative state left
by its predecessors), and a value published under an `outputKey` by
child `i` is readable by child `i + 1` within the same invocation. -/
theorem seq_order_and_outputKey (children : List AgentC) (st : SessionState) (i : Nat)
    (h : i + 1 < children.length) (nm : String) (backend : SessionState → List Event)
    (k : String) (hc : children.get ⟨i, Nat.lt_of_succ_lt h⟩ = mkLeaf nm backend (some k)) :
    (seqRun children st).1 = (seqEventsAt children st).flatten ∧
    (∀ j (hj : j < children.length),
      (seqEventsAt children st).get ⟨j, by rw [seqEventsAt_length]; exact hj⟩ =
        ((children.get ⟨j, hj⟩).run (observedState children st j)).1) ∧
    readKey (observedState children st (i + 1)) k =
      some (finalText nm (backend (observedState children st i))) := by
  refine ⟨seqRun_events children st, fun j hj => seqEventsAt_get children st j hj, ?_⟩
  rw [observedState_succ children st i (Nat.lt_of_succ_lt h), hc]
  simp [mkLeaf, readKey_publish]

/-- A concrete Leaf publishing under key `k1` (witness input). -/
def leafA : AgentC :=
  mkLeaf "A" (fun _ => [⟨"A", some ⟨[Part.text "x"]⟩, true, false⟩]) (some "k1")

/-- A concrete Leaf with no `outputKey` (witness input). -/
def leafB : AgentC := mkLeaf "B" (fun _ => []) none

theorem seq_order_and_outputKey_witness :
    (seqRun [leafA, leafB] ([] : SessionState)).1 =
      (seqEventsAt [leafA, leafB] ([] : SessionState)).flatten ∧
    (∀ j (hj : j < ([leafA, leafB] : List AgentC).length),
      (seqEventsAt [leafA, leafB] ([] : SessionState)).get
          ⟨j, by rw [seqEventsAt_length]; exact hj⟩ =
        (([leafA, leafB].get ⟨j, hj⟩).run
          (observedState [leafA, leafB] ([] : SessionState) j)).1) ∧
    readKey (observedState [leafA, leafB] ([] : SessionState) 1) "k1" =
      some (finalText "A"
        ((fun _ => [⟨"A", some ⟨[Part.text "x"]⟩, true, false⟩])
          (observedState [leafA, leafB] ([] : SessionState) 0))) :=
  seq_order_and_outputKey [leafA, leafB] ([] : SessionState) 0 (by decide) "A"
    (fun _ => [⟨"A", some ⟨[Part.text "x"]⟩, true, false⟩]) "k1" rfl

/-! ## The `wrap_agent` labelling decorator (src/root_agent.py, lines 36-55)

`NamedAgent._run_async_impl` iterates the wrapped agent's stream; for
each event whose content has a non-empty part list it appends the truthy
`p.text` of every part to a buffer, then yields the event unchanged;
after the stream ends, if the buffer is non-empty it prints the label
followed by the buffer joined with single spaces. -/

/-- One pass of the decorator over the wrapped stream: the yielded
stream paired with the text buffer accumulated along the way. -/
def wrapAgentRun : List Event → List Event × List String
  | [] => ([], [])
  | ev :: rest => (ev :: (wrapAgentRun rest).1, eventTexts ev ++ (wrapAgentRun rest).2)

/-- The labelled side-channel output printed after the stream is drained
(`none` when the buffer stayed empty, mirroring `if buffer:`). -/
def labeledOutput (label : String) (inner : List Event) : Option String :=
  if (wrapAgentRun inner).2 = [] then none
  else some ("[" ++ label ++ "] " ++ " ".intercalate (wrapAgentRun inner).2)

/-- C4: the decorator yields exactly the events of the undecorated
stream, unmodified and in order — the labelled aggregation never drops,
reorders, or transforms any event of the primary stream. -/
theorem wrap_agent_passthrough (inner : List Event) : (wrapAgentRun inner).1 = inner := by
  induction inner with
  | nil => rfl
  | cons ev rest ih => simp [wrapAgentRun, ih]

/-- C5 counterexample: a stream consisting of a single NON-final event
with text "hi" produces the labelled output "[L] hi", so the labelled
output is not built only from events with `isFinal = true`. -/
theorem aggregator_no_final_filter_cex :
    (([⟨"x", some ⟨[Part.text "hi"]⟩, false, false⟩] : List Event).all
      (fun ev => !ev.isFinal)) = true ∧
    labeledOutput "L" [⟨"x", some ⟨[Part.text "hi"]⟩, false, false⟩] = some "[L] hi" := by
  constructor
  · decide
  · rfl

/-- C5 amended: the buffer behind the labelled output collects, in
stream order, the text of every text-bearing part of EVERY event of the
stream — with no filter on `isFinal` and no filter on the author — and
non-text parts and empty texts contribute nothing (`eventTexts` keeps
exactly the non-empty `p.text` values); the printed label line is the
space-joined buffer, absent when no text was collected. -/
theorem aggregator_collects_all_text (label : String) (inner : List Event) :
    (wrapAgentRun inner).2 = inner.flatMap eventTexts ∧
    labeledOutput label inner =
      (if inner.flatMap eventTexts = [] then none
       else some ("[" ++ label ++ "] " ++ " ".intercalate (inner.flatMap eventTexts))) := by
  have hbuf : ∀ l : List Event, (wrapAgentRun l).2 = l.flatMap eventTexts := by
    intro l
    induction l with
    | nil => rfl
    | cons ev rest ih => simp [wrapAgentRun, ih]
  exact ⟨hbuf inner, by rw [labeledOutput, hbuf inner]⟩

/-! ## The `StopWhenDone` gate (src/test.py, lines 34-42)

`StopWhenDone._run_async_impl` joins the truthy texts of the turn's
user-content parts, strips surrounding whitespace, lowercases, compares
the result to the sentinel `"done"`, and yields a single content-free
event whose `actions.escalate` carries the comparison's outcome. -/

/-- Python `str.isspace` characters relevant to `str.strip()`. -/
def isPySpace (c : Char) : Bool :=
  c = ' ' || c = '\t' || c = '\n' || c = '\r' || c = '\x0b' || c = '\x0c'

/-- Python `str.strip()`: drop leading and trailing whitespace. -/
def pyStrip (s : String) : String :=
  String.mk (((s.data.dropWhile isPySpace).reverse.dropWhile isPySpace).reverse)

/-- Python `str.lower()` on one character (ASCII range; the sentinel
comparison below only involves ASCII). -/
def pyLowerChar (c : Char) : Char :=
  if 'A' ≤ c ∧ c ≤ 'Z' then Char.ofNat (c.toNat + 32) else c

/-- Python `str.lower()`. -/
def pyLower (s : String) : String :=
  String.mk (s.data.map pyLowerChar)

/-- The gate's stop condition as coded: guarded on user content being
present with a non-empty part list, then a case-insensitive,
whitespace-stripped comparison against the sentinel. -/
def stopCondition (uc : Option Content) : Bool :=
  match uc with
  | none => false
  | some c =>
    if c.parts = [] then false
    else pyLower (pyStrip (String.join (c.parts.filterMap truthyText))) == "done"

/-- The single event yielded by the gate for one turn. -/
def stopWhenDoneRun (name : String) (uc : Option Content) : List Event :=
  [⟨name, none, true, stopCondition uc⟩]

/-- C6 counterexample: on the raw turn input "DONE" the gate escalates,
although "DONE" is not an exact match of the sentinel token "done" — the
gate's condition is not exact match on the raw input. -/
theorem gate_exact_match_cex :
    (stopWhenDoneRun "StopWhenDone" (some ⟨[Part.text "DONE"]⟩)).map Event.escalate
      = [true] ∧
    ("DONE" : String) ≠ "done" := by
  constructor
  · decide
  · decide

/-- C6 amended: for every turn input, the gate emits exactly one event,
carrying no content, attributed to the gate, and its `actions.escalate`
is true if and only if the turn's user content is present with a
non-empty part list and its concatenated text, after stripping
surrounding whitespace and lowercasing, equals the sentinel "done". -/
theorem gate_single_event (name : String) (uc : Option Content) :
    (stopWhenDoneRun name uc).length = 1 ∧
    ∀ ev ∈ stopWhenDoneRun name uc,
      ev.content = none ∧ ev.author = name ∧
      (ev.escalate = true ↔
        ∃ c, uc = some c ∧ c.parts ≠ [] ∧
          pyLower (pyStrip (String.join (c.parts.filterMap truthyText))) = "done") := by
  refine ⟨rfl, ?_⟩
  intro ev hev
  simp only [stopWhenDoneRun, List.mem_singleton] at hev
  subst hev
  refine ⟨rfl, rfl, ?_⟩
  cases uc with
  | none => simp [stopCondition]
  | some c =>
    by_cases hp : c.parts = []
    · simp [stopCondition, hp]
    · simp [stopCondition, hp]

/-! ## Error propagation and the interactive runner
(spec section 7; `SequentialWorkflowRunner.run_loop`, src/main.py lines 51-82)

Modelled from the spec where it concerns composite internals: a child of
a Sequential aborts the composite's current invocation on failure and
the error propagates to the Runner.  The interactive loop itself is from
`src/main.py`: each non-blank line runs one turn inside a try/except
that surfaces the error and continues with the same session; a blank
line (after `strip()`) exits the loop before any turn runs. -/

/-- Outcome of one turn: the complete event stream, or an explicit
error surfaced to the caller. -/
inductive TurnResult where
  | ok (evs : List Event)
  | err (msg : String)
  deriving DecidableEq, Repr

/-- A fallible child: from the turn input and observed session state to
a result plus the session state it leaves behind. -/
structure AgentE where
  name : String
  run : String → SessionState → TurnResult × SessionState

/-- Modelled from the spec: Sequential execution with failure
propagation — returns the names of the children that executed, the
composite result, and the resulting session state; a failing child stops
the composite immediately. -/
def seqRunE : List AgentE → String → SessionState → List String × TurnResult × SessionState
  | [], _, st => ([], TurnResult.ok [], st)
  | c :: cs, inp, st =>
    match c.run inp st with
    | (TurnResult.err m, st1) => ([c.name], TurnResult.err m, st1)
    | (TurnResult.ok evs, st1) =>
      match seqRunE cs inp st1 with
      | (ran, TurnResult.ok evs2, st2) => (c.name :: ran, TurnResult.ok (evs ++ evs2), st2)
      | (ran, TurnResult.err m, st2) => (c.name :: ran, TurnResult.err m, st2)

/-- Modelled from the spec: one Loop iteration with failure
propagation — run the children in order; a failing child aborts the
iteration immediately (remaining children are skipped) and the error
propagates; an escalating child ends the iteration with the escalation
flag set; otherwise continue.  Returns the names of the children that
executed, the result, the escalation flag, and the session state. -/
def loopIterE (inp : String) : List AgentE → SessionState →
    List String × TurnResult × Bool × SessionState
  | [], st => ([], TurnResult.ok [], false, st)
  | c :: cs, st =>
    match c.run inp st with
    | (TurnResult.err m, st1) => ([c.name], TurnResult.err m, false, st1)
    | (TurnResult.ok evs, st1) =>
      if escalated evs then ([c.name], TurnResult.ok evs, true, st1)
      else
        match loopIterE inp cs st1 with
        | (ran, TurnResult.ok evs2, esc, st2) =>
          (c.name :: ran, TurnResult.ok (evs ++ evs2), esc, st2)
        | (ran, TurnResult.err m, esc, st2) => (c.name :: ran, TurnResult.err m, esc, st2)

/-- Modelled from the spec: the Loop composite with failure
propagation — a failing child aborts the loop's current invocation
immediately (no further iteration starts) and the error propagates to
the Runner; escalation terminates the loop normally; otherwise iterate
up to the remaining budget. -/
def loopRunE (children : List AgentE) (inp : String) : SessionState → Nat →
    List String × TurnResult × SessionState
  | st, 0 => ([], TurnResult.ok [], st)
  | st, rem + 1 =>
    match loopIterE inp children st with
    | (ran, TurnResult.err m, _, st1) => (ran, TurnResult.err m, st1)
    | (ran, TurnResult.ok evs, true, st1) => (ran, TurnResult.ok evs, st1)
    | (ran, TurnResult.ok evs, false, st1) =>
      match loopRunE children inp st1 rem with
      | (ran2, TurnResult.ok evs2, st2) => (ran ++ ran2, TurnResult.ok (evs ++ evs2), st2)
      | (ran2, TurnResult.err m2, st2) => (ran ++ ran2, TurnResult.err m2, st2)

/-- One Runner turn over the sequential workflow. -/
def runTurn (children : List AgentE) (inp : String) (st : SessionState) :
    TurnResult × SessionState :=
  (seqRunE children inp st).2

/-- The interactive loop of `SequentialWorkflowRunner.run_loop`: read
inputs in order; a blank input (after strip) exits; otherwise run one
turn, record its surfaced result (events or error), keep the session,
and continue. -/
def runLoop (children : List AgentE) : SessionState → List String →
    List (String × TurnResult) × SessionState
  | st, [] => ([], st)
  | st, inp :: rest =>
    if pyStrip inp = "" then ([], st)
    else
      ((inp, (runTurn children inp st).1) ::
          (runLoop children (runTurn children inp st).2 rest).1,
        (runLoop children (runTurn children inp st).2 rest).2)

/-- The interactive loop with a Loop composite at the root (the pattern
of `run_loop_orchestration` in src/test.py and src/root_agent.py): a
blank input exits; otherwise one turn of the loop composite runs, its
surfaced result is recorded, the session is kept, and the loop
continues. -/
def runLoopL (children : List AgentE) (cap : Nat) : SessionState → List String →
    List (String × TurnResult) × SessionState
  | st, [] => ([], st)
  | st, inp :: rest =>
    if pyStrip inp = "" then ([], st)
    else
      ((inp, (loopRunE children inp st cap).2.1) ::
          (runLoopL children cap (loopRunE children inp st cap).2.2 rest).1,
        (runLoopL children cap (loopRunE children inp st cap).2.2 rest).2)

theorem seqRunE_append_err (xs : List AgentE) (ys : List AgentE) (inp : String)
    (st st1 st2 : SessionState) (ran ran2 : List String) (evs : List Event) (m : String)
    (hx : seqRunE xs inp st = (ran, TurnResult.ok evs, st1))
    (hy : seqRunE ys inp st1 = (ran2, TurnResult.err m, st2)) :
    seqRunE (xs ++ ys) inp st = (ran ++ ran2, TurnResult.err m, st2) := by
  induction xs generalizing st ran evs with
  | nil =>
    simp only [seqRunE, Prod.mk.injEq] at hx
    obtain ⟨rfl, -, rfl⟩ := hx
    simpa using hy
  | cons c cs ih =>
    rcases hc : c.run inp st with ⟨res, stc⟩
    cases res with
    | err m0 => simp [seqRunE, hc] at hx
    | ok evs1 =>
      rcases hrec : seqRunE cs inp stc with ⟨ran1, res1, stc1⟩
      cases res1 with
      | err m1 => simp [seqRunE, hc, hrec] at hx
      | ok evs2 =>
        simp only [seqRunE, hc, hrec, Prod.mk.injEq] at hx
        obtain ⟨rfl, -, rfl⟩ := hx
        have h5 : seqRunE (cs ++ ys) inp stc = (ran1 ++ ran2, TurnResult.err m, st2) :=
          ih stc ran1 evs2 hrec
        simp [seqRunE, hc, h5]

theorem loopIterE_append_err (xs : List AgentE) (ys : List AgentE) (inp : String)
    (st st1 st2 : SessionState) (ran ran2 : List String) (evs : List Event) (m : String)
    (hx : loopIterE inp xs st = (ran, TurnResult.ok evs, false, st1))
    (hy : loopIterE inp ys st1 = (ran2, TurnResult.err m, false, st2)) :
    loopIterE inp (xs ++ ys) st = (ran ++ ran2, TurnResult.err m, false, st2) := by
  induction xs generalizing st ran evs with
  | nil =>
    simp only [loopIterE, Prod.mk.injEq] at hx
    obtain ⟨rfl, -, -, rfl⟩ := hx
    simpa using hy
  | cons c cs ih =>
    rcases hc : c.run inp st with ⟨res, stc⟩
    cases res with
    | err m0 => simp [loopIterE, hc] at hx
    | ok evs1 =>
      by_cases hesc : escalated evs1 = true
      · simp [loopIterE, hc, hesc] at hx
      · rcases hrec : loopIterE inp cs stc with ⟨ran1, res1, esc1, stc1⟩
        cases res1 with
        | err m1 => simp [loopIterE, hc, hesc, hrec] at hx
        | ok evs2 =>
          simp only [loopIterE, hc, hesc, if_neg, Bool.not_eq_true, if_false, hrec,
            Prod.mk.injEq] at hx
          obtain ⟨rfl, -, rfl, rfl⟩ := hx
          have h5 : loopIterE inp (cs ++ ys) stc = (ran1 ++ ran2, TurnResult.err m, false, st2) :=
            ih stc ran1 evs2 hrec
          simp [loopIterE, hc, hesc, h5]

/-- C7: when the first `j` children of a Sequential — or of one Loop
iteration — all succeed without escalating and child `j + 1` fails
(publishing nothing), the composite's current invocation aborts
immediately: the children after the failing one never execute and, for
the Loop, no further iteration starts; the error propagates as the
turn's surfaced result; the session state keeps everything published by
the prior children; and the interactive loop (sequential-rooted and
loop-rooted alike) continues: a further turn may run on the same
session. -/
theorem child_failure_aborts_turn (pre post : List AgentE) (cf : AgentE)
    (inp m : String) (st st1 : SessionState) (evs0 : List Event) (rest : List String)
    (n : Nat)
    (hpre : seqRunE pre inp st = (pre.map AgentE.name, TurnResult.ok evs0, st1))
    (hpreL : loopIterE inp pre st = (pre.map AgentE.name, TurnResult.ok evs0, false, st1))
    (hfail : cf.run inp st1 = (TurnResult.err m, st1))
    (hinp : pyStrip inp ≠ "") :
    seqRunE (pre ++ cf :: post) inp st =
      (pre.map AgentE.name ++ [cf.name], TurnResult.err m, st1) ∧
    loopRunE (pre ++ cf :: post) inp st (n + 1) =
      (pre.map AgentE.name ++ [cf.name], TurnResult.err m, st1) ∧
    runLoop (pre ++ cf :: post) st (inp :: rest) =
      ((inp, TurnResult.err m) :: (runLoop (pre ++ cf :: post) st1 rest).1,
        (runLoop (pre ++ cf :: post) st1 rest).2) ∧
    runLoopL (pre ++ cf :: post) (n + 1) st (inp :: rest) =
      ((inp, TurnResult.err m) :: (runLoopL (pre ++ cf :: post) (n + 1) st1 rest).1,
        (runLoopL (pre ++ cf :: post) (n + 1) st1 rest).2) := by
  have habort : seqRunE (pre ++ cf :: post) inp st =
      (pre.map AgentE.name ++ [cf.name], TurnResult.err m, st1) := by
    have hy : seqRunE (cf :: post) inp st1 = ([cf.name], TurnResult.err m, st1) := by
      simp [seqRunE, hfail]
    exact seqRunE_append_err pre (cf :: post) inp st st1 st1 (pre.map AgentE.name)
      [cf.name] evs0 m hpre hy
  have hiter : loopIterE inp (pre ++ cf :: post) st =
      (pre.map AgentE.name ++ [cf.name], TurnResult.err m, false, st1) := by
    have hy : loopIterE inp (cf :: post) st1 = ([cf.name], TurnResult.err m, false, st1) := by
      simp [loopIterE, hfail]
    exact loopIterE_append_err pre (cf :: post) inp st st1 st1 (pre.map AgentE.name)
      [cf.name] evs0 m hpreL hy
  have hloop : loopRunE (pre ++ cf :: post) inp st (n + 1) =
      (pre.map AgentE.name ++ [cf.name], TurnResult.err m, st1) := by
    simp [loopRunE, hiter]
  refine ⟨habort, hloop, ?_, ?_⟩
  · simp [runLoop, hinp, runTurn, habort]
  · simp [runLoopL, hinp, hloop]

/-- Witness inputs for the error-propagation theorem. -/
def okAgent : AgentE := ⟨"ok", fun _ st => (TurnResult.ok [], st)⟩

/-- A child whose backend always fails, leaving the session unchanged. -/
def failAgent : AgentE := ⟨"boom", fun _ st => (TurnResult.err "backend failure", st)⟩

theorem child_failure_aborts_turn_witness :
    seqRunE [okAgent, failAgent, okAgent] "q" ([] : SessionState) =
      (["ok", "boom"], TurnResult.err "backend failure", ([] : SessionState)) ∧
    loopRunE [okAgent, failAgent, okAgent] "q" ([] : SessionState) 1 =
      (["ok", "boom"], TurnResult.err "backend failure", ([] : SessionState)) ∧
    runLoop [okAgent, failAgent, okAgent] ([] : SessionState) ["q"] =
      (("q", TurnResult.err "backend failure") ::
          (runLoop [okAgent, failAgent, okAgent] ([] : SessionState) []).1,
        (runLoop [okAgent, failAgent, okAgent] ([] : SessionState) []).2) ∧
    runLoopL [okAgent, failAgent, okAgent] 1 ([] : SessionState) ["q"] =
      (("q", TurnResult.err "backend failure") ::
          (runLoopL [okAgent, failAgent, okAgent] 1 ([] : SessionState) []).1,
        (runLoopL [okAgent, failAgent, okAgent] 1 ([] : SessionState) []).2) :=
  child_failure_aborts_turn [okAgent] [okAgent] failAgent "q" "backend failure"
    ([] : SessionState) ([] : SessionState) [] [] 0 rfl rfl rfl (by decide)

/-! ## Final-response collection (src/agents/EdgeCaseAgent/agent.py, lines 60-80)

The caller iterates the turn's whole stream, keeps the text of the last
final event authored by the expected agent, and afterwards prints either
that text or the explicit marker "(no final response produced by the
agent)". -/

/-- What the caller observes for one turn. -/
inductive TurnOutcome where
  | success (text : String)
  | noFinal
  deriving DecidableEq, Repr

/-- The loop body of `run_agent`: fold over the stream keeping the
joined text of the last event that is final, is authored by the expected
agent, and carries at least one truthy text part. -/
def collectLastFinal (expected : String) (evs : List Event) : Option String :=
  evs.foldl
    (fun acc ev =>
      if ev.isFinal && (ev.author == expected) && !(eventTexts ev).isEmpty
      then some (String.join (eventTexts ev)) else acc)
    none

/-- After the stream is drained: Python truthiness of `last_final_text`
selects between printing the text and printing the no-final marker. -/
def turnOutcome (expected : String) (evs : List Event) : TurnOutcome :=
  match collectLastFinal expected evs with
  | none => TurnOutcome.noFinal
  | some s => if s = "" then TurnOutcome.noFinal else TurnOutcome.success s

theorem collectLastFinal_eq_none (expected : String) (evs : List Event)
    (h : ∀ ev ∈ evs,
      (ev.isFinal && (ev.author == expected) && !(eventTexts ev).isEmpty) = false) :
    collectLastFinal expected evs = none := by
  induction evs with
  | nil => rfl
  | cons ev rest ih =>
    have hcond := h ev (List.mem_cons_self ev rest)
    have hrest := ih (fun e he => h e (List.mem_cons_of_mem ev he))
    unfold collectLastFinal at hrest ⊢
    rw [List.foldl_cons]
    simpa [hcond] using hrest

/-- C8: when a stream completes without any final event attributed to
the expected author, the caller observes the distinct `noFinal` outcome,
which is never equal to a success outcome — no default success is
silently substituted. -/
theorem no_final_event_is_reported (expected : String) (evs : List Event)
    (h : ∀ ev ∈ evs, ¬(ev.isFinal = true ∧ ev.author = expected)) :
    turnOutcome expected evs = TurnOutcome.noFinal ∧
    ∀ s, TurnOutcome.noFinal ≠ TurnOutcome.success s := by
  have hb : ∀ ev ∈ evs,
      (ev.isFinal && (ev.author == expected) && !(eventTexts ev).isEmpty) = false := by
    intro ev hev
    have hne := h ev hev
    by_cases hf : ev.isFinal = true
    · by_cases ha : ev.author = expected
      · exact absurd ⟨hf, ha⟩ hne
      · have : (ev.author == expected) = false := beq_eq_false_iff_ne.mpr ha
        simp [this]
    · have : ev.isFinal = false := Bool.not_eq_true _ ▸ hf
      simp [this]
  have hnone := collectLastFinal_eq_none expected evs hb
  refine ⟨?_, fun s hs => TurnOutcome.noConfusion hs⟩
  simp [turnOutcome, hnone]

theorem no_final_event_is_reported_witness :
    turnOutcome "EdgeCaseAgent" [⟨"other", some ⟨[Part.text "hi"]⟩, true, false⟩,
      ⟨"EdgeCaseAgent", some ⟨[Part.text "partial"]⟩, false, false⟩] = TurnOutcome.noFinal ∧
    ∀ s, TurnOutcome.noFinal ≠ TurnOutcome.success s :=
  no_final_event_is_reported "EdgeCaseAgent"
    [⟨"other", some ⟨[Part.text "hi"]⟩, true, false⟩,
      ⟨"EdgeCaseAgent", some ⟨[Part.text "partial"]⟩, false, false⟩]
    (by decide)

/-! ## The interactive loop input gate (src/main.py lines 57-62) -/

theorem runLoop_turns (children : List AgentE) :
    ∀ (st : SessionState) (inputs : List String),
      (runLoop children st inputs).1.map Prod.fst =
        inputs.takeWhile (fun i => pyStrip i != "") := by
  intro st inputs
  induction inputs generalizing st with
  | nil => rfl
  | cons inp rest ih =>
    by_cases h : pyStrip inp = ""
    · have hb : (pyStrip inp != "") = false := by simp [h]
      simp [runLoop, h, List.takeWhile_cons, hb]
    · have hb : (pyStrip inp != "") = true := by simp [h]
      simp [runLoop, h, List.takeWhile_cons, hb, ih]

/-- C9: a blank (whitespace-only after stripping) input terminates the
interactive loop with no turn executed — no events are produced and the
session state is unchanged — and, in any run, the turns executed are
exactly one per input of the maximal non-blank prefix, in order. -/
theorem blank_input_exits_loop (children : List AgentE) (st : SessionState)
    (inp : String) (rest : List String) (h : pyStrip inp = "") :
    runLoop children st (inp :: rest) = ([], st) ∧
    ∀ (st' : SessionState) (inputs : List String),
      (runLoop children st' inputs).1.map Prod.fst =
        inputs.takeWhile (fun i => pyStrip i != "") := by
  refine ⟨?_, fun st' inputs => runLoop_turns children st' inputs⟩
  simp [runLoop, h]

theorem blank_input_exits_loop_witness :
    runLoop [okAgent] ([] : SessionState) ["  ", "later"] = ([], ([] : SessionState)) ∧
    ∀ (st' : SessionState) (inputs : List String),
      (runLoop [okAgent] st' inputs).1.map Prod.fst =
        inputs.takeWhile (fun i => pyStrip i != "") :=
  blank_input_exits_loop [okAgent] ([] : SessionState) "  " ["later"] (by decide)

/-! ## `normalize_value` (src/agent_tools/bigquery_tool.py, lines 68-123)

A Python value is embedded constructor by constructor along the
branches of `normalize_value`: the JSON-native leaves (`None`, `str`,
`int`, `float`, `bool`), the `datetime`/`date`/`time` family carrying
its `isoformat()` string, `Decimal` carrying its literal together with
the result of `float(v)` when that conversion succeeds, `bytes`
carrying the result of `decode("utf-8")` when it succeeds plus the
`str(v)` fallback, mappings (anything exposing `.items()`, dicts and
BigQuery Rows alike) with stringified keys, sequences, and unknown
objects carrying their `str(v)` representation.  Floats are opaque
literals: `normalize_value` never computes with them. -/

mutual

inductive PyVal where
  | pyNone
  | pyStr (s : String)
  | pyInt (n : Int)
  | pyFloat (lit : String)
  | pyBool (b : Bool)
  | pyDatetime (iso : String)
  | pyDecimal (lit : String) (asFloat : Option String)
  | pyBytes (utf8 : Option String) (strRepr : String)
  | pyDict (kvs : PyPairs)
  | pyList (xs : PyList)
  | pyObj (strRepr : String)

inductive PyList where
  | nil
  | cons (x : PyVal) (xs : PyList)

inductive PyPairs where
  | nil
  | cons (k : String) (v : PyVal) (kvs : PyPairs)

end

mutual

/-- Embeds `normalize_value`, branch for branch: JSON-native values pass
through; datetime/date/time map to their ISO string; Decimal maps to
`float(v)` or, failing that, its string; bytes decode to UTF-8 or fall
back to `str(v)`; mappings recurse value-wise into a dict; sequences
recurse element-wise; any other object falls back to `str(v)`. -/
def normalize_value : PyVal → PyVal
  | PyVal.pyNone => PyVal.pyNone
  | PyVal.pyStr s => PyVal.pyStr s
  | PyVal.pyInt n => PyVal.pyInt n
  | PyVal.pyFloat lit => PyVal.pyFloat lit
  | PyVal.pyBool b => PyVal.pyBool b
  | PyVal.pyDatetime iso => PyVal.pyStr iso
  | PyVal.pyDecimal _ (some f) => PyVal.pyFloat f
  | PyVal.pyDecimal lit none => PyVal.pyStr lit
  | PyVal.pyBytes (some s) _ => PyVal.pyStr s
  | PyVal.pyBytes none r => PyVal.pyStr r
  | PyVal.pyDict kvs => PyVal.pyDict (normalizePairs kvs)
  | PyVal.pyList xs => PyVal.pyList (normalizeList xs)
  | PyVal.pyObj r => PyVal.pyStr r

def normalizeList : PyList → PyList
  | PyList.nil => PyList.nil
  | PyList.cons x xs => PyList.cons (normalize_value x) (normalizeList xs)

def normalizePairs : PyPairs → PyPairs
  | PyPairs.nil => PyPairs.nil
  | PyPairs.cons k v kvs => PyPairs.cons k (normalize_value v) (normalizePairs kvs)

end

mutual

/-- A value is JSON-native when it is `None`, a string, an int, a
float, a bool, or a dict/list whose entries are JSON-native. -/
def isJsonNative : PyVal → Bool
  | PyVal.pyNone => true
  | PyVal.pyStr _ => true
  | PyVal.pyInt _ => true
  | PyVal.pyFloat _ => true
  | PyVal.pyBool _ => true
  | PyVal.pyDatetime _ => false
  | PyVal.pyDecimal _ _ => false
  | PyVal.pyBytes _ _ => false
  | PyVal.pyDict kvs => pairsJsonNative kvs
  | PyVal.pyList xs => listJsonNative xs
  | PyVal.pyObj _ => false

def listJsonNative : PyList → Bool
  | PyList.nil => true
  | PyList.cons x xs => isJsonNative x && listJsonNative xs

def pairsJsonNative : PyPairs → Bool
  | PyPairs.nil => true
  | PyPairs.cons _ v kvs => isJsonNative v && pairsJsonNative kvs

end

mutual

theorem normalize_native_aux : ∀ v, isJsonNative (normalize_value v) = true
  | PyVal.pyNone => rfl
  | PyVal.pyStr _ => rfl
  | PyVal.pyInt _ => rfl
  | PyVal.pyFloat _ => rfl
  | PyVal.pyBool _ => rfl
  | PyVal.pyDatetime _ => rfl
  | PyVal.pyDecimal _ (some _) => rfl
  | PyVal.pyDecimal _ none => rfl
  | PyVal.pyBytes (some _) _ => rfl
  | PyVal.pyBytes none _ => rfl
  | PyVal.pyDict kvs => by
    simpa [normalize_value, isJsonNative] using normalizePairs_native_aux kvs
  | PyVal.pyList xs => by
    simpa [normalize_value, isJsonNative] using normalizeList_native_aux xs
  | PyVal.pyObj _ => rfl

theorem normalizeList_native_aux : ∀ xs, listJsonNative (normalizeList xs) = true
  | PyList.nil => rfl
  | PyList.cons x xs => by
    simp [normalizeList, listJsonNative, normalize_native_aux x, normalizeList_native_aux xs]

theorem normalizePairs_native_aux : ∀ kvs, pairsJsonNative (normalizePairs kvs) = true
  | PyPairs.nil => rfl
  | PyPairs.cons k v kvs => by
    simp [normalizePairs, pairsJsonNative, normalize_native_aux v,
      normalizePairs_native_aux kvs]

end

/-- C10: `normalize_value` is total (a function of the whole value
domain) and always returns a JSON-native value; in particular datetimes
normalize to their ISO strings, Decimals to floats (or their literal
string when the float conversion fails), bytes to their decoded text,
and unknown objects to their string representation. -/
theorem normalize_value_json_native :
    (∀ v, isJsonNative (normalize_value v) = true) ∧
    (∀ iso, normalize_value (PyVal.pyDatetime iso) = PyVal.pyStr iso) ∧
    (∀ lit f, normalize_value (PyVal.pyDecimal lit (some f)) = PyVal.pyFloat f) ∧
    (∀ lit, normalize_value (PyVal.pyDecimal lit none) = PyVal.pyStr lit) ∧
    (∀ s r, normalize_value (PyVal.pyBytes (some s) r) = PyVal.pyStr s) ∧
    (∀ r, normalize_value (PyVal.pyObj r) = PyVal.pyStr r) :=
  ⟨normalize_native_aux, fun _ => rfl, fun _ _ => rfl, fun _ => rfl,
    fun _ _ => rfl, fun _ => rfl⟩

end Adk
